import Mathlib

/-!
Verification of the portfolio-analysis engine
(`scripts/efficient_frontier.py` and `scripts/portfolio_metrics.py`).

Price tables are embedded as `List (List α)`: one inner list per dated row,
one entry per asset column.  Exact field arithmetic (`ℚ` for computable
statements, `ℝ` where the source takes real powers or square roots) stands in
for Python floats.  Randomness in the Monte-Carlo sampler is an explicit
oracle `rand : ℕ → List α` supplying the raw draw of iteration `i`.
Python exceptions are modelled by `Except PyError`.
-/

namespace Portfolio

/-- Python runtime exceptions that the engine code can actually raise:
`valueError` for `np.argmax` / `np.argmin` / `min` on an empty sequence,
`zeroDivisionError` for float division by zero on plain Python floats. -/
inductive PyError where
  | valueError
  | zeroDivisionError
deriving DecidableEq, Repr

/-! ## Statistics Builder (`data.pct_change().dropna()`, `.mean() * 252`, `.cov() * 252`) -/

section Stats

variable {α : Type} [Field α]

/-- One row of `DataFrame.pct_change`: elementwise `cur / prev - 1`. -/
def pctRow (prev cur : List α) : List α :=
  List.zipWith (fun p c => c / p - 1) prev cur

/-- `data.pct_change().dropna()`: relative change between consecutive rows;
the first row (all-NaN in pandas) is dropped. -/
def pctChange : List (List α) → List (List α)
  | [] => []
  | [_] => []
  | p :: c :: rest => pctRow p c :: pctChange (c :: rest)

/-- Column `j` of a row-major table (`DataFrame` column extraction). -/
def col (j : ℕ) (rows : List (List α)) : List α :=
  rows.map (fun r => r.getD j 0)

/-- `Series.mean`: sum divided by the number of entries. -/
def colMean (xs : List α) : α := xs.sum / (xs.length : α)

/-- Pandas sample covariance of two aligned columns: centered cross products
summed and divided by `N - 1` (the unbiased divisor used by `DataFrame.cov`). -/
def sampleCov (xs ys : List α) : α :=
  (List.zipWith (fun x y => (x - colMean xs) * (y - colMean ys)) xs ys).sum
    / ((xs.length : α) - 1)

/-- `returns.mean() * 252` for column `j` (annualized mean return). -/
def meanReturn (data : List (List α)) (j : ℕ) : α :=
  colMean (col j (pctChange data)) * 252

/-- Entry `(i, j)` of `returns.cov() * 252` (annualized covariance matrix). -/
def covEntry (data : List (List α)) (i j : ℕ) : α :=
  sampleCov (col i (pctChange data)) (col j (pctChange data)) * 252

/-- `np.dot` of two vectors. -/
def dot (xs ys : List α) : α := (List.zipWith (· * ·) xs ys).sum

/-- `np.dot(matrix, vector)`. -/
def matVec (m : List (List α)) (v : List α) : List α :=
  m.map (fun row => dot row v)

/-- Number of asset columns, `len(mean_returns)` in the source: the width of
the table. -/
def numAssets (data : List (List α)) : ℕ := (data.headD []).length

/-- The annualized mean-return vector `returns.mean() * 252`. -/
def meanVec (data : List (List α)) : List α :=
  (List.range (numAssets data)).map (meanReturn data)

/-- The annualized covariance matrix `returns.cov() * 252`, row-major. -/
def covMat (data : List (List α)) : List (List α) :=
  (List.range (numAssets data)).map (fun i =>
    (List.range (numAssets data)).map (fun j => covEntry data i j))

end Stats

/-! ### Spec-side statistics formulas (§4.1 of the design document) -/

section SpecStats

variable {α : Type} [Field α]

/-- Price of asset `a` at row `t` (0 outside the table). -/
def priceAt (data : List (List α)) (t a : ℕ) : α := (data.getD t []).getD a 0

/-- Modelled from the spec: periodic return for asset `a` at row `t` is
`(price[t] - price[t-1]) / price[t-1]` (stated here with `t` the index of the
return row, so prices at rows `t+1` and `t`). -/
def specReturn (data : List (List α)) (t a : ℕ) : α :=
  (priceAt data (t + 1) a - priceAt data t a) / priceAt data t a

/-- Modelled from the spec: mean-return vector = column-wise mean of periodic
returns × 252, with `N` the number of return rows. -/
def specMeanReturn (data : List (List α)) (a : ℕ) : α :=
  (∑ t ∈ Finset.range (data.length - 1), specReturn data t a)
    / ((data.length - 1 : ℕ) : α) * 252

/-- Modelled from the spec: covariance = unbiased sample covariance of the
periodic returns (divisor `N - 1`) × 252. -/
def specCovEntry (data : List (List α)) (a b : ℕ) : α :=
  (∑ t ∈ Finset.range (data.length - 1),
      (specReturn data t a - (∑ s ∈ Finset.range (data.length - 1), specReturn data s a)
          / ((data.length - 1 : ℕ) : α))
        * (specReturn data t b - (∑ s ∈ Finset.range (data.length - 1), specReturn data s b)
          / ((data.length - 1 : ℕ) : α)))
    / (((data.length - 1 : ℕ) : α) - 1) * 252

end SpecStats

/-! ## Efficient Frontier Sampler (`calculate_efficient_frontier`) -/

/-- The `results` dictionary built by `calculate_efficient_frontier`:
four parallel lists in generation order. -/
structure SimResults (α : Type) where
  returns : List α
  risks : List α
  sharpe_ratios : List α
  weights : List (List α)
deriving DecidableEq

/-- The empty `results` dictionary the sampling loop starts from. -/
def emptyResults (α : Type) : SimResults α := ⟨[], [], [], []⟩

/-- One iteration's portfolio quantities, from the raw random draw `raw`:
normalized weights, portfolio return, risk and Sharpe ratio. -/
noncomputable def samplePoint (meanV : List ℝ) (cov : List (List ℝ)) (rf : ℝ)
    (raw : List ℝ) : List ℝ × ℝ × ℝ × ℝ :=
  let w := raw.map (fun x => x / raw.sum)
  let ret := dot w meanV
  let risk := Real.sqrt (dot w (matVec cov w))
  (w, ret, risk, (ret - rf) / risk)

/-- Appending one iteration's results to the four lists, mirroring the four
`append` calls in the loop body. -/
def pushPoint (res : SimResults ℝ) (p : List ℝ × ℝ × ℝ × ℝ) : SimResults ℝ :=
  { returns := res.returns ++ [p.2.1]
    risks := res.risks ++ [p.2.2.1]
    sharpe_ratios := res.sharpe_ratios ++ [p.2.2.2]
    weights := res.weights ++ [p.1] }

/-- `calculate_efficient_frontier(data, num_portfolios, risk_free_rate)`:
builds the statistics from `data`, then loops `numPortfolios` times, drawing
`rand i` on iteration `i`, normalizing it into weights and appending the
portfolio's return, risk, Sharpe ratio and weights to the results. -/
noncomputable def calculate_efficient_frontier (data : List (List ℝ))
    (numPortfolios : ℕ) (rf : ℝ) (rand : ℕ → List ℝ) : SimResults ℝ :=
  (List.range numPortfolios).foldl
    (fun res i => pushPoint res (samplePoint (meanVec data) (covMat data) rf (rand i)))
    (emptyResults ℝ)

/-! ## Optimal Portfolio Selectors -/

/-- `np.argmax`: index of the first occurrence of the maximum (0 on `[]`,
where the real call raises; emptiness is guarded at each use site). -/
def argmaxIdx {α : Type} [LinearOrder α] : List α → ℕ
  | [] => 0
  | [_] => 0
  | x :: y :: t =>
    let j := argmaxIdx (y :: t)
    if (y :: t).getD j y ≤ x then 0 else j + 1

/-- `np.argmin`: index of the first occurrence of the minimum. -/
def argminIdx {α : Type} [LinearOrder α] : List α → ℕ
  | [] => 0
  | [_] => 0
  | x :: y :: t =>
    let j := argminIdx (y :: t)
    if x ≤ (y :: t).getD j y then 0 else j + 1

/-- The dictionary returned by `find_max_sharpe_portfolio` and
`find_min_volatility_portfolio`. -/
structure SelPortfolio (α : Type) where
  weights : List α
  ret : α
  risk : α
  sharpe_ratio : α
deriving DecidableEq

/-- `find_max_sharpe_portfolio(results)`: the portfolio at
`np.argmax(results["sharpe_ratios"])`; `np.argmax` raises `ValueError` on an
empty sequence. -/
def find_max_sharpe_portfolio {α : Type} [LinearOrderedField α]
    (r : SimResults α) : Except PyError (SelPortfolio α) :=
  if r.sharpe_ratios.isEmpty then .error .valueError
  else
    let i := argmaxIdx r.sharpe_ratios
    .ok ⟨r.weights.getD i [], r.returns.getD i 0, r.risks.getD i 0,
      r.sharpe_ratios.getD i 0⟩

/-- `find_min_volatility_portfolio(results)`: the portfolio at
`np.argmin(results["risks"])`. -/
def find_min_volatility_portfolio {α : Type} [LinearOrderedField α]
    (r : SimResults α) : Except PyError (SelPortfolio α) :=
  if r.risks.isEmpty then .error .valueError
  else
    let i := argminIdx r.risks
    .ok ⟨r.weights.getD i [], r.returns.getD i 0, r.risks.getD i 0,
      r.sharpe_ratios.getD i 0⟩

/-- One entry of the list returned by `suggest_optimal_weights`. -/
structure OptPortfolio (α : Type) where
  index : ℕ
  weights : List α
  risk : α
  ret : α
deriving DecidableEq

/-- `suggest_optimal_weights(results)`: `min(results["risks"])` (raising
`ValueError` on an empty list), then every indexed portfolio whose risk is
within `0.001` of that minimum, in generation order. -/
def suggest_optimal_weights {α : Type} [LinearOrderedField α]
    (r : SimResults α) : Except PyError (List (OptPortfolio α)) :=
  match r.risks.min? with
  | none => .error .valueError
  | some minRisk =>
    .ok (r.risks.enum.filterMap (fun p =>
      if p.2 - minRisk ≤ (1 : α) / 1000 then
        some ⟨p.1, r.weights.getD p.1 [], r.risks.getD p.1 0, r.returns.getD p.1 0⟩
      else none))

/-! ## Portfolio Metrics Calculator (`calculate_portfolio_metrics`) -/

/-- The metrics dictionary returned by `calculate_portfolio_metrics`. -/
structure Metrics where
  expectedReturnCAGR : ℝ
  riskAnnualizedStdDev : ℝ
  sharpeRatio : ℝ

/-- `calculate_portfolio_metrics(data, weights, risk_free_rate)`: CAGR per
asset from first and last rows with `years = len(data) / 252`, weights
normalized by their sum (Python float division raises `ZeroDivisionError`
when the sum is exactly 0), portfolio return as the normalized-weight dot
product with the CAGRs, risk as the square root of the covariance quadratic
form, and Sharpe ratio by plain division.  The source's locals
`annual_returns` and `annualized_risk` are computed but never used in the
returned dictionary, so they are omitted here. -/
noncomputable def calculate_portfolio_metrics (data : List (List ℝ))
    (weights : List ℝ) (rf : ℝ) : Except PyError Metrics :=
  let rets := pctChange data
  let initialV := data.headD []
  let finalV := data.getLastD []
  let years : ℝ := (data.length : ℝ) / 252
  let cagr := List.zipWith (fun i0 f0 => (f0 / i0) ^ ((1 : ℝ) / years) - 1) initialV finalV
  if weights.sum = 0 then .error .zeroDivisionError
  else
    let nw := weights.map (fun w => w / weights.sum)
    let pret := dot nw cagr
    let k := initialV.length
    let cov := (List.range k).map (fun i =>
      (List.range k).map (fun j => sampleCov (col i rets) (col j rets) * 252))
    let pstd := Real.sqrt (dot nw (matVec cov nw))
    .ok { expectedReturnCAGR := pret, riskAnnualizedStdDev := pstd,
          sharpeRatio := (pret - rf) / pstd }

/-- The §4.2 metrics computed from a weight vector used as-is (no
re-normalization and no error path); stated from the spec's description to
compare with `calculate_portfolio_metrics` under its normalization. -/
noncomputable def directMetrics (data : List (List ℝ)) (nw : List ℝ)
    (rf : ℝ) : Metrics :=
  let rets := pctChange data
  let initialV := data.headD []
  let finalV := data.getLastD []
  let years : ℝ := (data.length : ℝ) / 252
  let cagr := List.zipWith (fun i0 f0 => (f0 / i0) ^ ((1 : ℝ) / years) - 1) initialV finalV
  let pret := dot nw cagr
  let k := initialV.length
  let cov := (List.range k).map (fun i =>
    (List.range k).map (fun j => sampleCov (col i rets) (col j rets) * 252))
  let pstd := Real.sqrt (dot nw (matVec cov nw))
  { expectedReturnCAGR := pret, riskAnnualizedStdDev := pstd,
    sharpeRatio := (pret - rf) / pstd }

/-! ## Lemmas about the Statistics Builder -/

section StatsLemmas

variable {α : Type} [Field α]

theorem pctChange_length : ∀ data : List (List α),
    (pctChange data).length = data.length - 1
  | [] => rfl
  | [_] => rfl
  | p :: c :: rest => by
    have ih := pctChange_length (c :: rest)
    simp only [pctChange, List.length_cons] at ih ⊢
    omega

theorem pctChange_getD : ∀ (data : List (List α)) (t : ℕ), t + 1 < data.length →
    (pctChange data).getD t [] = pctRow (data.getD t []) (data.getD (t + 1) [])
  | [], t, h => by simp at h
  | [_], t, h => by simp at h
  | p :: c :: rest, 0, h => by simp [pctChange]
  | p :: c :: rest, t + 1, h => by
    have ih := pctChange_getD (c :: rest) t (by simp only [List.length_cons] at h ⊢; omega)
    simpa only [pctChange, List.getD_cons_succ] using ih

theorem pctRow_getD (prev cur : List α) (a : ℕ) (h1 : a < prev.length)
    (h2 : a < cur.length) :
    (pctRow prev cur).getD a 0 = cur.getD a 0 / prev.getD a 0 - 1 := by
  have hlen : a < (pctRow prev cur).length := by
    simp only [pctRow, List.length_zipWith]; omega
  rw [List.getD_eq_getElem _ _ hlen, List.getD_eq_getElem _ _ h1,
    List.getD_eq_getElem _ _ h2]
  simp [pctRow]

theorem list_sum_getD (l : List α) :
    l.sum = ∑ i ∈ Finset.range l.length, l.getD i 0 := by
  induction l with
  | nil => simp
  | cons x t ih =>
    rw [List.sum_cons, ih, List.length_cons, Finset.sum_range_succ']
    simp [add_comm]

theorem col_length (j : ℕ) (rows : List (List α)) :
    (col j rows).length = rows.length := by simp [col]

theorem col_getD (j : ℕ) (rows : List (List α)) (t : ℕ) (h : t < rows.length) :
    (col j rows).getD t 0 = (rows.getD t []).getD j 0 := by
  have h2 : t < (col j rows).length := by rwa [col_length]
  rw [List.getD_eq_getElem _ _ h2, List.getD_eq_getElem _ _ h]
  simp [col]

theorem zipWith_sum_getD (f : α → α → α) (xs ys : List α) (h : xs.length = ys.length) :
    (List.zipWith f xs ys).sum
      = ∑ i ∈ Finset.range xs.length, f (xs.getD i 0) (ys.getD i 0) := by
  rw [list_sum_getD, List.length_zipWith, ← h, min_self]
  refine Finset.sum_congr rfl fun i hi => ?_
  rw [Finset.mem_range] at hi
  rw [List.getD_eq_getElem _ _ (by simp only [List.length_zipWith]; omega),
    List.getD_eq_getElem _ _ (by omega : i < xs.length),
    List.getD_eq_getElem _ _ (by rw [← h] at *; omega : i < ys.length)]
  simp

end StatsLemmas

section C1Lemmas

variable {α : Type} [LinearOrderedField α] {data : List (List α)} {k : ℕ}

theorem priceAt_pos (hpos : ∀ r ∈ data, ∀ x ∈ r, 0 < x) {t a : ℕ}
    (ht : t < data.length) (ha : a < (data.getD t []).length) :
    0 < priceAt data t a := by
  unfold priceAt
  rw [List.getD_eq_getElem _ _ ha]
  have hmem : data.getD t [] ∈ data := by
    rw [List.getD_eq_getElem _ _ ht]; exact List.getElem_mem _
  exact hpos _ hmem _ (List.getElem_mem _)

theorem row_length_eq (hk : ∀ r ∈ data, r.length = k) {t : ℕ}
    (ht : t < data.length) : (data.getD t []).length = k := by
  rw [List.getD_eq_getElem _ _ ht]
  exact hk _ (List.getElem_mem _)

theorem pct_entry_eq_specReturn (hk : ∀ r ∈ data, r.length = k)
    (hpos : ∀ r ∈ data, ∀ x ∈ r, 0 < x) {t a : ℕ}
    (ht : t + 1 < data.length) (ha : a < k) :
    (col a (pctChange data)).getD t 0 = specReturn data t a := by
  have hlen : t < (pctChange data).length := by rw [pctChange_length]; omega
  rw [col_getD _ _ _ hlen, pctChange_getD data t ht,
    pctRow_getD _ _ _ (by rw [row_length_eq hk (by omega)]; exact ha)
      (by rw [row_length_eq hk ht]; exact ha)]
  have hp : (0 : α) < priceAt data t a :=
    priceAt_pos hpos (by omega) (by rw [row_length_eq hk (by omega)]; exact ha)
  unfold priceAt at hp
  unfold specReturn priceAt
  rw [sub_div, div_self (ne_of_gt hp)]

theorem col_pct_length (a : ℕ) :
    (col a (pctChange data)).length = data.length - 1 := by
  rw [col_length, pctChange_length]

theorem col_pct_sum (hk : ∀ r ∈ data, r.length = k)
    (hpos : ∀ r ∈ data, ∀ x ∈ r, 0 < x) {a : ℕ} (ha : a < k) :
    (col a (pctChange data)).sum
      = ∑ t ∈ Finset.range (data.length - 1), specReturn data t a := by
  rw [list_sum_getD, col_pct_length]
  refine Finset.sum_congr rfl fun t htm => ?_
  rw [Finset.mem_range] at htm
  exact pct_entry_eq_specReturn hk hpos (by omega) ha

theorem colMean_pct (hk : ∀ r ∈ data, r.length = k)
    (hpos : ∀ r ∈ data, ∀ x ∈ r, 0 < x) {a : ℕ} (ha : a < k) :
    colMean (col a (pctChange data))
      = (∑ t ∈ Finset.range (data.length - 1), specReturn data t a)
          / ((data.length - 1 : ℕ) : α) := by
  unfold colMean
  rw [col_pct_sum hk hpos ha, col_pct_length]

end C1Lemmas

/-- C1: for every price table with at least 2 rows and at least 1 column (all
prices positive, rows aligned to width `k`), the Statistics Builder step of
`calculate_efficient_frontier` computes the periodic return of asset `a` at
return row `t` as `(price[t+1] - price[t]) / price[t]`, the mean-return
vector as the column-wise mean of the periodic returns times 252, and the
covariance matrix as the unbiased sample covariance (divisor `N - 1`, `N` the
number of return rows) of the periodic returns times 252. -/
theorem statistics_builder_formulas {α : Type} [LinearOrderedField α]
    (data : List (List α)) (k : ℕ)
    (hk : ∀ r ∈ data, r.length = k) (hpos : ∀ r ∈ data, ∀ x ∈ r, 0 < x)
    (hrows : 2 ≤ data.length) (hcols : 1 ≤ k) :
    (∀ t a, t + 1 < data.length → a < k →
        ((pctChange data).getD t []).getD a 0 = specReturn data t a)
    ∧ (∀ a, a < k → meanReturn data a = specMeanReturn data a)
    ∧ (∀ a b, a < k → b < k → covEntry data a b = specCovEntry data a b) := by
  refine ⟨fun t a ht ha => ?_, fun a ha => ?_, fun a b ha hb => ?_⟩
  · have hlen : t < (pctChange data).length := by rw [pctChange_length]; omega
    have := pct_entry_eq_specReturn hk hpos ht ha
    rwa [col_getD _ _ _ hlen] at this
  · unfold meanReturn specMeanReturn
    rw [colMean_pct hk hpos ha]
  · unfold covEntry specCovEntry sampleCov
    rw [zipWith_sum_getD _ _ _ (by rw [col_pct_length, col_pct_length]),
      col_pct_length]
    congr 1
    congr 1
    refine Finset.sum_congr rfl fun t htm => ?_
    rw [Finset.mem_range] at htm
    rw [pct_entry_eq_specReturn hk hpos (by omega) ha,
      pct_entry_eq_specReturn hk hpos (by omega) hb,
      colMean_pct hk hpos ha, colMean_pct hk hpos hb]

/-- Witness for C1 at the concrete 3×2 table `[[1,2],[2,1],[4,3]]`. -/
theorem statistics_builder_formulas_witness :
    ((∀ r ∈ [[(1 : ℚ), 2], [2, 1], [4, 3]], r.length = 2)
      ∧ (∀ r ∈ [[(1 : ℚ), 2], [2, 1], [4, 3]], ∀ x ∈ r, 0 < x))
    ∧ ((∀ t a, t + 1 < ([[(1 : ℚ), 2], [2, 1], [4, 3]] : List (List ℚ)).length → a < 2 →
          ((pctChange [[(1 : ℚ), 2], [2, 1], [4, 3]]).getD t []).getD a 0
            = specReturn [[(1 : ℚ), 2], [2, 1], [4, 3]] t a)
        ∧ (∀ a, a < 2 → meanReturn [[(1 : ℚ), 2], [2, 1], [4, 3]] a
            = specMeanReturn [[(1 : ℚ), 2], [2, 1], [4, 3]] a)
        ∧ (∀ a b, a < 2 → b < 2 → covEntry [[(1 : ℚ), 2], [2, 1], [4, 3]] a b
            = specCovEntry [[(1 : ℚ), 2], [2, 1], [4, 3]] a b)) :=
  ⟨⟨by decide, by decide⟩,
    statistics_builder_formulas [[(1 : ℚ), 2], [2, 1], [4, 3]] 2
      (by decide) (by decide) (by decide) (by decide)⟩

/-! ## Lemmas about the Efficient Frontier Sampler -/

theorem getD_map_range {β : Type} (f : ℕ → β) {n i : ℕ} (h : i < n) (d : β) :
    ((List.range n).map f).getD i d = f i := by
  rw [List.getD_eq_getElem _ _ (by simpa)]
  simp

theorem sum_map_div {α : Type} [DivisionRing α] (l : List α) (s : α) :
    (l.map (fun x => x / s)).sum = l.sum / s := by
  induction l with
  | nil => simp
  | cons x t ih => simp [ih, add_div]

/-- The sampling loop in closed form: each of the four result lists is the
image of the corresponding `samplePoint` component over the draw indices. -/
theorem frontier_closed_form (data : List (List ℝ)) (n : ℕ) (rf : ℝ)
    (rand : ℕ → List ℝ) :
    calculate_efficient_frontier data n rf rand =
      { returns := (List.range n).map
          (fun i => (samplePoint (meanVec data) (covMat data) rf (rand i)).2.1)
        risks := (List.range n).map
          (fun i => (samplePoint (meanVec data) (covMat data) rf (rand i)).2.2.1)
        sharpe_ratios := (List.range n).map
          (fun i => (samplePoint (meanVec data) (covMat data) rf (rand i)).2.2.2)
        weights := (List.range n).map
          (fun i => (samplePoint (meanVec data) (covMat data) rf (rand i)).1) } := by
  induction n with
  | zero => rfl
  | succ n ih =>
    unfold calculate_efficient_frontier at ih ⊢
    rw [List.range_succ, List.foldl_append, ih]
    simp [pushPoint, List.range_succ]

/-- C6: for every statistics input, risk-free rate, draw oracle and
`numPortfolios ≥ 0`, the population returned by
`calculate_efficient_frontier` has exactly `numPortfolios` entries in each
result list, and the `i`-th entry of each list is the quantity computed from
the `i`-th draw (insertion order = generation order); with
`numPortfolios = 0` the population is empty. -/
theorem frontier_population_size_and_order (data : List (List ℝ)) (n : ℕ)
    (rf : ℝ) (rand : ℕ → List ℝ) :
    (calculate_efficient_frontier data n rf rand).returns.length = n
    ∧ (calculate_efficient_frontier data n rf rand).risks.length = n
    ∧ (calculate_efficient_frontier data n rf rand).sharpe_ratios.length = n
    ∧ (calculate_efficient_frontier data n rf rand).weights.length = n
    ∧ (∀ i, i < n →
        (calculate_efficient_frontier data n rf rand).weights.getD i []
            = (rand i).map (fun x => x / (rand i).sum)
        ∧ (calculate_efficient_frontier data n rf rand).returns.getD i 0
            = dot ((rand i).map (fun x => x / (rand i).sum)) (meanVec data)
        ∧ (calculate_efficient_frontier data n rf rand).risks.getD i 0
            = Real.sqrt (dot ((rand i).map (fun x => x / (rand i).sum))
                (matVec (covMat data) ((rand i).map (fun x => x / (rand i).sum))))
        ∧ (calculate_efficient_frontier data n rf rand).sharpe_ratios.getD i 0
            = (dot ((rand i).map (fun x => x / (rand i).sum)) (meanVec data) - rf)
                / Real.sqrt (dot ((rand i).map (fun x => x / (rand i).sum))
                    (matVec (covMat data) ((rand i).map (fun x => x / (rand i).sum))))) := by
  rw [frontier_closed_form]
  refine ⟨by simp, by simp, by simp, by simp, fun i hi => ?_⟩
  refine ⟨?_, ?_, ?_, ?_⟩ <;>
    simp only [getD_map_range _ hi, samplePoint]

/-- Witness for C6 at `numPortfolios = 2` with the constant draw `[1, 3]`. -/
theorem frontier_population_size_and_order_witness :
    (calculate_efficient_frontier [[1, 2], [2, 3]] 2 (3 / 100)
        (fun _ => [1, 3])).returns.length = 2
    ∧ (calculate_efficient_frontier [[1, 2], [2, 3]] 2 (3 / 100)
        (fun _ => [1, 3])).risks.length = 2
    ∧ (calculate_efficient_frontier [[1, 2], [2, 3]] 2 (3 / 100)
        (fun _ => [1, 3])).sharpe_ratios.length = 2
    ∧ (calculate_efficient_frontier [[1, 2], [2, 3]] 2 (3 / 100)
        (fun _ => [1, 3])).weights.length = 2
    ∧ (∀ i, i < 2 →
        (calculate_efficient_frontier [[1, 2], [2, 3]] 2 (3 / 100)
            (fun _ => [1, 3])).weights.getD i []
            = ([1, 3] : List ℝ).map (fun x => x / ([1, 3] : List ℝ).sum)
        ∧ (calculate_efficient_frontier [[1, 2], [2, 3]] 2 (3 / 100)
            (fun _ => [1, 3])).returns.getD i 0
            = dot (([1, 3] : List ℝ).map (fun x => x / ([1, 3] : List ℝ).sum))
                (meanVec [[1, 2], [2, 3]])
        ∧ (calculate_efficient_frontier [[1, 2], [2, 3]] 2 (3 / 100)
            (fun _ => [1, 3])).risks.getD i 0
            = Real.sqrt (dot (([1, 3] : List ℝ).map (fun x => x / ([1, 3] : List ℝ).sum))
                (matVec (covMat [[1, 2], [2, 3]])
                  (([1, 3] : List ℝ).map (fun x => x / ([1, 3] : List ℝ).sum))))
        ∧ (calculate_efficient_frontier [[1, 2], [2, 3]] 2 (3 / 100)
            (fun _ => [1, 3])).sharpe_ratios.getD i 0
            = (dot (([1, 3] : List ℝ).map (fun x => x / ([1, 3] : List ℝ).sum))
                  (meanVec [[1, 2], [2, 3]]) - 3 / 100)
                / Real.sqrt (dot (([1, 3] : List ℝ).map (fun x => x / ([1, 3] : List ℝ).sum))
                    (matVec (covMat [[1, 2], [2, 3]])
                      (([1, 3] : List ℝ).map (fun x => x / ([1, 3] : List ℝ).sum))))) :=
  frontier_population_size_and_order [[1, 2], [2, 3]] 2 (3 / 100) (fun _ => [1, 3])

/-- C3: in every run of `calculate_efficient_frontier` whose raw draws are
non-negative with positive sum (the almost-sure range of
`np.random.random`), every weight vector of the returned population has all
components ≥ 0 and components summing to 1 (hence within `1e-9` of 1). -/
theorem sampled_weights_nonneg_sum_one (data : List (List ℝ)) (n : ℕ)
    (rf : ℝ) (rand : ℕ → List ℝ)
    (hdraw : ∀ i, i < n → (∀ x ∈ rand i, 0 ≤ x) ∧ 0 < (rand i).sum) :
    ∀ w ∈ (calculate_efficient_frontier data n rf rand).weights,
      (∀ x ∈ w, 0 ≤ x) ∧ |w.sum - 1| ≤ 1 / 1000000000 := by
  rw [frontier_closed_form]
  intro w hw
  simp only [List.mem_map, List.mem_range] at hw
  obtain ⟨i, hi, rfl⟩ := hw
  obtain ⟨hnn, hpos⟩ := hdraw i hi
  simp only [samplePoint]
  constructor
  · intro x hx
    simp only [List.mem_map] at hx
    obtain ⟨y, hy, rfl⟩ := hx
    exact div_nonneg (hnn y hy) (le_of_lt hpos)
  · rw [sum_map_div, div_self (ne_of_gt hpos)]
    norm_num

/-- Witness for C3: one draw `[1, 3]` on a 2-asset table. -/
theorem sampled_weights_nonneg_sum_one_witness :
    (∀ i, i < 1 → (∀ x ∈ ([1, 3] : List ℝ), 0 ≤ x) ∧ 0 < ([1, 3] : List ℝ).sum)
    ∧ ∀ w ∈ (calculate_efficient_frontier [[1, 2], [2, 3]] 1 (3 / 100)
        (fun _ => [1, 3])).weights,
      (∀ x ∈ w, 0 ≤ x) ∧ |w.sum - 1| ≤ 1 / 1000000000 :=
  ⟨fun _ _ => ⟨by intro x hx; simp at hx; rcases hx with h | h <;> simp [h], by norm_num⟩,
    sampled_weights_nonneg_sum_one [[1, 2], [2, 3]] 1 (3 / 100) (fun _ => [1, 3])
      (fun _ _ => ⟨by intro x hx; simp at hx; rcases hx with h | h <;> simp [h], by norm_num⟩)⟩

/-! ## Lemmas about the Selectors -/

theorem getD_indep {α : Type} (l : List α) {i : ℕ} (h : i < l.length) (d1 d2 : α) :
    l.getD i d1 = l.getD i d2 := by
  rw [List.getD_eq_getElem _ _ h, List.getD_eq_getElem _ _ h]

theorem argmaxIdx_lt_length {α : Type} [LinearOrder α] :
    ∀ l : List α, l ≠ [] → argmaxIdx l < l.length
  | [], h => absurd rfl h
  | [x], _ => by simp [argmaxIdx]
  | x :: y :: t, _ => by
    have ih := argmaxIdx_lt_length (y :: t) (by simp)
    have hunfold : argmaxIdx (x :: y :: t)
        = if (y :: t).getD (argmaxIdx (y :: t)) y ≤ x then 0
          else argmaxIdx (y :: t) + 1 := rfl
    rw [hunfold]
    simp only [List.length_cons] at ih ⊢
    split <;> omega

/-- `argmaxIdx` picks a maximal value, and every strictly earlier index
holds a strictly smaller value (first occurrence of the maximum). -/
theorem argmaxIdx_spec {α : Type} [LinearOrder α] (d : α) :
    ∀ l : List α,
      (∀ k, k < l.length → l.getD k d ≤ l.getD (argmaxIdx l) d)
      ∧ (∀ k, k < argmaxIdx l → l.getD k d < l.getD (argmaxIdx l) d)
  | [] => by
    constructor
    · intro k hk; simp at hk
    · intro k hk; simp [argmaxIdx] at hk
  | [x] => by
    constructor
    · intro k hk
      simp only [List.length_cons, List.length_nil] at hk
      have : k = 0 := by omega
      subst this
      simp [argmaxIdx]
    · intro k hk; simp [argmaxIdx] at hk
  | x :: y :: t => by
    obtain ⟨ihmax, ihfirst⟩ := argmaxIdx_spec d (y :: t)
    have hjlen : argmaxIdx (y :: t) < (y :: t).length :=
      argmaxIdx_lt_length (y :: t) (by simp)
    have hdd : (y :: t).getD (argmaxIdx (y :: t)) y
        = (y :: t).getD (argmaxIdx (y :: t)) d := getD_indep _ hjlen y d
    have hunfold : argmaxIdx (x :: y :: t)
        = if (y :: t).getD (argmaxIdx (y :: t)) y ≤ x then 0
          else argmaxIdx (y :: t) + 1 := rfl
    by_cases hcase : (y :: t).getD (argmaxIdx (y :: t)) y ≤ x
    · rw [hunfold, if_pos hcase]
      rw [hdd] at hcase
      constructor
      · intro k hk
        match k with
        | 0 => simp
        | k + 1 =>
          simp only [List.getD_cons_succ, List.getD_cons_zero]
          simp only [List.length_cons] at hk
          exact le_trans (ihmax k (by simp only [List.length_cons] at *; omega)) hcase
      · intro k hk; simp at hk
    · rw [hunfold, if_neg hcase]
      rw [hdd] at hcase
      push_neg at hcase
      constructor
      · intro k hk
        match k with
        | 0 => simpa using le_of_lt hcase
        | k + 1 =>
          simp only [List.getD_cons_succ]
          simp only [List.length_cons] at hk
          exact ihmax k (by simp only [List.length_cons]; omega)
      · intro k hk
        match k with
        | 0 => simpa using hcase
        | k + 1 =>
          simp only [List.getD_cons_succ]
          exact ihfirst k (by omega)

theorem argminIdx_lt_length {α : Type} [LinearOrder α] :
    ∀ l : List α, l ≠ [] → argminIdx l < l.length
  | [], h => absurd rfl h
  | [x], _ => by simp [argminIdx]
  | x :: y :: t, _ => by
    have ih := argminIdx_lt_length (y :: t) (by simp)
    have hunfold : argminIdx (x :: y :: t)
        = if x ≤ (y :: t).getD (argminIdx (y :: t)) y then 0
          else argminIdx (y :: t) + 1 := rfl
    rw [hunfold]
    simp only [List.length_cons] at ih ⊢
    split <;> omega

/-- `argminIdx` picks a minimal value, and every strictly earlier index
holds a strictly larger value (first occurrence of the minimum). -/
theorem argminIdx_spec {α : Type} [LinearOrder α] (d : α) :
    ∀ l : List α,
      (∀ k, k < l.length → l.getD (argminIdx l) d ≤ l.getD k d)
      ∧ (∀ k, k < argminIdx l → l.getD (argminIdx l) d < l.getD k d)
  | [] => by
    constructor
    · intro k hk; simp at hk
    · intro k hk; simp [argminIdx] at hk
  | [x] => by
    constructor
    · intro k hk
      simp only [List.length_cons, List.length_nil] at hk
      have : k = 0 := by omega
      subst this
      simp [argminIdx]
    · intro k hk; simp [argminIdx] at hk
  | x :: y :: t => by
    obtain ⟨ihmin, ihfirst⟩ := argminIdx_spec d (y :: t)
    have hjlen : argminIdx (y :: t) < (y :: t).length :=
      argminIdx_lt_length (y :: t) (by simp)
    have hdd : (y :: t).getD (argminIdx (y :: t)) y
        = (y :: t).getD (argminIdx (y :: t)) d := getD_indep _ hjlen y d
    have hunfold : argminIdx (x :: y :: t)
        = if x ≤ (y :: t).getD (argminIdx (y :: t)) y then 0
          else argminIdx (y :: t) + 1 := rfl
    by_cases hcase : x ≤ (y :: t).getD (argminIdx (y :: t)) y
    · rw [hunfold, if_pos hcase]
      rw [hdd] at hcase
      constructor
      · intro k hk
        match k with
        | 0 => simp
        | k + 1 =>
          simp only [List.getD_cons_succ, List.getD_cons_zero]
          simp only [List.length_cons] at hk
          exact le_trans hcase (ihmin k (by simp only [List.length_cons] at *; omega))
      · intro k hk; simp at hk
    · rw [hunfold, if_neg hcase]
      rw [hdd] at hcase
      push_neg at hcase
      constructor
      · intro k hk
        match k with
        | 0 => simpa using le_of_lt hcase
        | k + 1 =>
          simp only [List.getD_cons_succ]
          simp only [List.length_cons] at hk
          exact ihmin k (by simp only [List.length_cons]; omega)
      · intro k hk
        match k with
        | 0 => simpa using hcase
        | k + 1 =>
          simp only [List.getD_cons_succ]
          exact ihfirst k (by omega)

/-- C4: on every non-empty population, `find_max_sharpe_portfolio` returns
the portfolio point at an index `i` whose Sharpe ratio is maximal, with
every strictly earlier index holding a strictly smaller Sharpe ratio — so
among tied maxima it returns the one with the lowest generation index. -/
theorem max_sharpe_selects_first_maximum {α : Type} [LinearOrderedField α]
    (r : SimResults α) (hne : r.sharpe_ratios ≠ []) :
    ∃ i, find_max_sharpe_portfolio r
        = .ok ⟨r.weights.getD i [], r.returns.getD i 0, r.risks.getD i 0,
            r.sharpe_ratios.getD i 0⟩
      ∧ i < r.sharpe_ratios.length
      ∧ (∀ j, j < r.sharpe_ratios.length →
          r.sharpe_ratios.getD j 0 ≤ r.sharpe_ratios.getD i 0)
      ∧ (∀ j, j < i → r.sharpe_ratios.getD j 0 < r.sharpe_ratios.getD i 0) := by
  refine ⟨argmaxIdx r.sharpe_ratios, ?_, argmaxIdx_lt_length _ hne,
    (argmaxIdx_spec 0 r.sharpe_ratios).1, (argmaxIdx_spec 0 r.sharpe_ratios).2⟩
  unfold find_max_sharpe_portfolio
  rw [if_neg (by simpa [List.isEmpty_iff] using hne)]

/-- Witness for C4 on a population whose Sharpe ratios `[1, 3, 3, 2]` have a
tie for the maximum at indices 1 and 2. -/
theorem max_sharpe_selects_first_maximum_witness :
    (([1, 3, 3, 2] : List ℚ) ≠ [])
    ∧ ∃ i, find_max_sharpe_portfolio
          (⟨[10, 20, 30, 40], [5, 6, 7, 8], [1, 3, 3, 2],
            [[1, 0], [0, 1], [1, 1], [0, 0]]⟩ : SimResults ℚ)
        = .ok ⟨([[1, 0], [0, 1], [1, 1], [0, 0]] : List (List ℚ)).getD i [],
            ([10, 20, 30, 40] : List ℚ).getD i 0,
            ([5, 6, 7, 8] : List ℚ).getD i 0,
            ([1, 3, 3, 2] : List ℚ).getD i 0⟩
      ∧ i < ([1, 3, 3, 2] : List ℚ).length
      ∧ (∀ j, j < ([1, 3, 3, 2] : List ℚ).length →
          ([1, 3, 3, 2] : List ℚ).getD j 0 ≤ ([1, 3, 3, 2] : List ℚ).getD i 0)
      ∧ (∀ j, j < i → ([1, 3, 3, 2] : List ℚ).getD j 0 < ([1, 3, 3, 2] : List ℚ).getD i 0) :=
  ⟨by decide,
    max_sharpe_selects_first_maximum
      (⟨[10, 20, 30, 40], [5, 6, 7, 8], [1, 3, 3, 2],
        [[1, 0], [0, 1], [1, 1], [0, 0]]⟩ : SimResults ℚ) (by decide)⟩

/-- C9: invoked on the empty population, each of the three selectors —
`find_max_sharpe_portfolio`, `find_min_volatility_portfolio` and
`suggest_optimal_weights` — fails with the error raised for an empty
population (the spec's `EmptyPopulationError` condition, a `ValueError` at
the Python level). -/
theorem selectors_fail_on_empty_population {α : Type} [LinearOrderedField α] :
    find_max_sharpe_portfolio (emptyResults α) = .error .valueError
    ∧ find_min_volatility_portfolio (emptyResults α) = .error .valueError
    ∧ suggest_optimal_weights (emptyResults α) = .error .valueError :=
  ⟨rfl, rfl, rfl⟩

/-! ## `min` over a non-empty list (Python `min`) -/

theorem foldl_min_le_init {α : Type} [LinearOrder α] :
    ∀ (t : List α) (x : α), t.foldl min x ≤ x
  | [], x => le_refl x
  | y :: t, x => le_trans (foldl_min_le_init t (min x y)) (min_le_left x y)

theorem foldl_min_le_mem {α : Type} [LinearOrder α] :
    ∀ (t : List α) (x : α), ∀ y ∈ t, t.foldl min x ≤ y
  | z :: t, x, y, hy => by
    rcases List.mem_cons.1 hy with h | h
    · subst h
      exact le_trans (foldl_min_le_init t (min x y)) (min_le_right x y)
    · exact foldl_min_le_mem t (min x z) y h

theorem min?_le_all {α : Type} [LinearOrder α] {l : List α} {m : α}
    (h : l.min? = some m) : ∀ x ∈ l, m ≤ x := by
  cases l with
  | nil => simp at h
  | cons x t =>
    rw [List.min?_cons'] at h
    obtain rfl := Option.some.inj h
    intro z hz
    rcases List.mem_cons.1 hz with hzx | hzt
    · subst hzx; exact foldl_min_le_init t z
    · exact foldl_min_le_mem t x z hzt

/-- C5: on every non-empty population, `suggest_optimal_weights` returns
exactly the portfolio points whose risk is within the `0.001` threshold of
the population's minimum risk, listed in generation order (strictly
increasing generation indices). -/
theorem near_min_risk_edge_selection {α : Type} [LinearOrderedField α]
    (r : SimResults α) (hne : r.risks ≠ []) :
    ∃ (l : List (OptPortfolio α)) (m : α),
      suggest_optimal_weights r = .ok l
      ∧ m ∈ r.risks ∧ (∀ x ∈ r.risks, m ≤ x)
      ∧ (∀ q, q ∈ l ↔ ∃ i, i < r.risks.length
            ∧ r.risks.getD i 0 - m ≤ 1 / 1000
            ∧ q = ⟨i, r.weights.getD i [], r.risks.getD i 0, r.returns.getD i 0⟩)
      ∧ (l.map OptPortfolio.index).Pairwise (· < ·) := by
  have hmin : ∃ m, r.risks.min? = some m := by
    cases hr : r.risks with
    | nil => exact absurd hr hne
    | cons x t => exact ⟨_, List.min?_cons'⟩
  obtain ⟨m, hm⟩ := hmin
  have hmem : m ∈ r.risks := List.min?_mem (fun a b => min_choice a b) hm
  have hle : ∀ x ∈ r.risks, m ≤ x := min?_le_all hm
  have hok : suggest_optimal_weights r
      = .ok (r.risks.enum.filterMap (fun p =>
          if p.2 - m ≤ 1 / 1000 then
            some (⟨p.1, r.weights.getD p.1 [], r.risks.getD p.1 0,
              r.returns.getD p.1 0⟩ : OptPortfolio α)
          else none)) := by
    unfold suggest_optimal_weights
    rw [hm]
  refine ⟨_, m, hok, hmem, hle, ?_, ?_⟩
  · intro q
    rw [List.mem_filterMap]
    constructor
    · rintro ⟨⟨i, x⟩, hmem2, hf⟩
      rw [List.mk_mem_enum_iff_getElem?] at hmem2
      obtain ⟨hlt, hx⟩ := List.getElem?_eq_some.mp hmem2
      have hgd : r.risks.getD i 0 = x := by
        rw [List.getD_eq_getElem _ _ hlt, hx]
      by_cases hc : x - m ≤ 1 / 1000
      · rw [if_pos hc] at hf
        obtain rfl := Option.some.inj hf
        exact ⟨i, hlt, by rw [hgd]; exact hc, rfl⟩
      · rw [if_neg hc] at hf
        simp at hf
    · rintro ⟨i, hlt, hc, rfl⟩
      refine ⟨(i, r.risks.getD i 0), ?_, ?_⟩
      · rw [List.mk_mem_enum_iff_getElem?, List.getElem?_eq_getElem hlt,
          List.getD_eq_getElem _ _ hlt]
      · exact if_pos hc
  · rw [List.pairwise_map]
    apply List.pairwise_filterMap.mpr
    have henum : r.risks.enum.Pairwise (fun a b => a.1 < b.1) := by
      have h1 := List.pairwise_lt_range r.risks.length
      rw [← List.enum_map_fst r.risks] at h1
      exact List.pairwise_map.mp h1
    refine henum.imp ?_
    intro a b hab
    intro q1 hq1 q2 hq2
    have hidx : ∀ (p : ℕ × α) (q : OptPortfolio α),
        q ∈ (if p.2 - m ≤ 1 / 1000 then
          some (⟨p.1, r.weights.getD p.1 [], r.risks.getD p.1 0,
            r.returns.getD p.1 0⟩ : OptPortfolio α) else none) → q.index = p.1 := by
      intro p q hq
      by_cases hc : p.2 - m ≤ 1 / 1000
      · rw [if_pos hc, Option.mem_def] at hq
        obtain rfl := Option.some.inj hq.symm
        rfl
      · rw [if_neg hc] at hq
        simp at hq
    rw [hidx a q1 hq1, hidx b q2 hq2]
    exact hab

/-- Witness for C5 on the population with risks `[5, 4, 4.0005, 6]`:
minimum 4, edge contains indices 1 and 2. -/
theorem near_min_risk_edge_selection_witness :
    (([5, 4, 4 + 1 / 2000, 6] : List ℚ) ≠ [])
    ∧ ∃ (l : List (OptPortfolio ℚ)) (m : ℚ),
      suggest_optimal_weights
          (⟨[10, 20, 30, 40], [5, 4, 4 + 1 / 2000, 6], [1, 2, 3, 4],
            [[1, 0], [0, 1], [1, 1], [0, 0]]⟩ : SimResults ℚ) = .ok l
      ∧ m ∈ ([5, 4, 4 + 1 / 2000, 6] : List ℚ)
      ∧ (∀ x ∈ ([5, 4, 4 + 1 / 2000, 6] : List ℚ), m ≤ x)
      ∧ (∀ q, q ∈ l ↔ ∃ i, i < ([5, 4, 4 + 1 / 2000, 6] : List ℚ).length
            ∧ ([5, 4, 4 + 1 / 2000, 6] : List ℚ).getD i 0 - m ≤ 1 / 1000
            ∧ q = ⟨i, ([[1, 0], [0, 1], [1, 1], [0, 0]] : List (List ℚ)).getD i [],
                ([5, 4, 4 + 1 / 2000, 6] : List ℚ).getD i 0,
                ([10, 20, 30, 40] : List ℚ).getD i 0⟩)
      ∧ (l.map OptPortfolio.index).Pairwise (· < ·) :=
  ⟨by decide,
    near_min_risk_edge_selection
      (⟨[10, 20, 30, 40], [5, 4, 4 + 1 / 2000, 6], [1, 2, 3, 4],
        [[1, 0], [0, 1], [1, 1], [0, 0]]⟩ : SimResults ℚ) (by decide)⟩

/-! ## Lemmas about the Portfolio Metrics Calculator -/

theorem calculate_portfolio_metrics_ok (data : List (List ℝ)) (w : List ℝ)
    (rf : ℝ) (hs : w.sum ≠ 0) :
    calculate_portfolio_metrics data w rf
      = .ok (directMetrics data (w.map (fun x => x / w.sum)) rf) := by
  unfold calculate_portfolio_metrics directMetrics
  rw [if_neg hs]

theorem calculate_portfolio_metrics_err (data : List (List ℝ)) (w : List ℝ)
    (rf : ℝ) (hs : w.sum = 0) :
    calculate_portfolio_metrics data w rf = .error .zeroDivisionError := by
  unfold calculate_portfolio_metrics
  rw [if_pos hs]

theorem headD_map_range {β : Type} (f : ℕ → β) (n : ℕ) (h : 0 < n) (d : β) :
    ((List.range n).map f).headD d = f 0 := by
  cases n with
  | zero => omega
  | succ m => rw [List.range_succ_eq_map]; rfl

theorem getLastD_map_range {β : Type} (f : ℕ → β) (n : ℕ) (h : 0 < n) (d : β) :
    ((List.range n).map f).getLastD d = f (n - 1) := by
  have hlen : ((List.range n).map f).length = n := by simp
  have hne : ((List.range n).map f) ≠ [] := by
    intro hcon
    rw [hcon] at hlen
    simp at hlen
    omega
  have hlt : n - 1 < ((List.range n).map f).length := by omega
  rw [List.getLastD_eq_getLast?, List.getLast?_eq_getElem?, hlen,
    List.getElem?_eq_getElem hlt]
  simp [List.getElem_map, List.getElem_range]

/-- C8 counterexample: for the caller-supplied weights `[1, -2]` — whose sum
`-1` is negative, hence ≤ 0 — `calculate_portfolio_metrics` does not fail at
all: it returns a result, refuting the claimed `InvalidWeightsError`. -/
theorem negative_weight_sum_returns_ok :
    (calculate_portfolio_metrics [[(1 : ℝ)], [2]] [1, -2] (3 / 100)).isOk = true := by
  rw [calculate_portfolio_metrics_ok _ _ _ (by norm_num)]
  rfl

/-- C8 (amended): `calculate_portfolio_metrics` fails — with the
`ZeroDivisionError` of Python float division — exactly when the
caller-supplied weight sum is 0; for every nonzero sum (positive or
negative) it re-normalizes the weights by dividing each by the sum and
computes the metrics from the normalized weights. -/
theorem weight_normalization_and_zero_sum (data : List (List ℝ))
    (w : List ℝ) (rf : ℝ) :
    (w.sum = 0 → calculate_portfolio_metrics data w rf = .error .zeroDivisionError)
    ∧ (w.sum ≠ 0 → calculate_portfolio_metrics data w rf
        = .ok (directMetrics data (w.map (fun x => x / w.sum)) rf)) :=
  ⟨calculate_portfolio_metrics_err data w rf,
    calculate_portfolio_metrics_ok data w rf⟩

/-- Witness for C8 (amended) at weights `[1, -2]`. -/
theorem weight_normalization_and_zero_sum_witness :
    (([1, -2] : List ℝ).sum ≠ 0)
    ∧ calculate_portfolio_metrics [[(1 : ℝ)], [2]] [1, -2] (3 / 100)
        = .ok (directMetrics [[(1 : ℝ)], [2]]
            (([1, -2] : List ℝ).map (fun x => x / ([1, -2] : List ℝ).sum)) (3 / 100)) :=
  ⟨by norm_num,
    (weight_normalization_and_zero_sum [[(1 : ℝ)], [2]] [1, -2] (3 / 100)).2 (by norm_num)⟩

/-- C7 counterexample: on the constant price table `[[1], [1], [1]]` with
weights `[1]` the computed portfolio risk is exactly 0, yet
`calculate_portfolio_metrics` returns a result instead of failing with any
`DegenerateRiskError`. -/
theorem zero_risk_returns_ok :
    (calculate_portfolio_metrics [[(1 : ℝ)], [1], [1]] [1] (3 / 100)).isOk = true
    ∧ ((calculate_portfolio_metrics [[(1 : ℝ)], [1], [1]] [1] (3 / 100)).toOption.map
        Metrics.riskAnnualizedStdDev) = some 0 := by
  rw [calculate_portfolio_metrics_ok _ _ _ (by norm_num)]
  refine ⟨rfl, ?_⟩
  have hrisk : (directMetrics [[(1 : ℝ)], [1], [1]] [1]
      (3 / 100)).riskAnnualizedStdDev = 0 := by
    unfold directMetrics
    norm_num [pctChange, pctRow, col, colMean, sampleCov, dot, matVec,
      List.zipWith, Real.sqrt_zero]
  simp [Except.toOption, hrisk]

/-- C7 (amended): whenever the weight sum is nonzero,
`calculate_portfolio_metrics` returns a result — even when the computed
risk is zero — and its Sharpe ratio is always the bare quotient
`(return - riskFreeRate) / risk`, with no signal guarding the zero-risk
division. -/
theorem metrics_zero_risk_unsignaled (data : List (List ℝ)) (w : List ℝ)
    (rf : ℝ) (hs : w.sum ≠ 0) :
    ∃ mv, calculate_portfolio_metrics data w rf = .ok mv
      ∧ mv.sharpeRatio = (mv.expectedReturnCAGR - rf) / mv.riskAnnualizedStdDev := by
  rw [calculate_portfolio_metrics_ok _ _ _ hs]
  exact ⟨_, rfl, rfl⟩

/-- Witness for C7 (amended) at the zero-risk constant table. -/
theorem metrics_zero_risk_unsignaled_witness :
    (([1] : List ℝ).sum ≠ 0)
    ∧ ∃ mv, calculate_portfolio_metrics [[(1 : ℝ)], [1], [1]] [1] (3 / 100) = .ok mv
      ∧ mv.sharpeRatio = (mv.expectedReturnCAGR - 3 / 100) / mv.riskAnnualizedStdDev :=
  ⟨by norm_num,
    metrics_zero_risk_unsignaled [[(1 : ℝ)], [1], [1]] [1] (3 / 100) (by norm_num)⟩

/-- C10: the metrics are invariant under positive rescaling of the
caller-supplied weights: for every `c > 0` and weight list with positive
sum, `calculate_portfolio_metrics` on `c · w` returns exactly the same
result as on `w`. -/
theorem metrics_scale_invariant (data : List (List ℝ)) (w : List ℝ)
    (rf c : ℝ) (hc : 0 < c) (hw : 0 < w.sum) :
    calculate_portfolio_metrics data (w.map (fun x => c * x)) rf
      = calculate_portfolio_metrics data w rf := by
  have hsum : ∀ l : List ℝ, (l.map (fun x => c * x)).sum = c * l.sum := by
    intro l
    induction l with
    | nil => simp
    | cons x t ih => simp [ih, mul_add]
  have hsum := hsum w
  have hcs : c * w.sum ≠ 0 := ne_of_gt (mul_pos hc hw)
  rw [calculate_portfolio_metrics_ok _ _ _ (by rw [hsum]; exact hcs),
    calculate_portfolio_metrics_ok _ _ _ (ne_of_gt hw)]
  have hnw : (w.map (fun x => c * x)).map
        (fun x => x / (w.map (fun x => c * x)).sum)
      = w.map (fun x => x / w.sum) := by
    rw [hsum, List.map_map]
    refine List.map_congr_left fun x _ => ?_
    simp only [Function.comp]
    exact mul_div_mul_left x w.sum (ne_of_gt hc)
  rw [hnw]

/-- Witness for C10 at `c = 2`, `w = [1]`. -/
theorem metrics_scale_invariant_witness :
    ((0 : ℝ) < 2 ∧ (0 : ℝ) < ([1] : List ℝ).sum)
    ∧ calculate_portfolio_metrics [[(1 : ℝ)], [2]]
          (([1] : List ℝ).map (fun x => 2 * x)) (3 / 100)
        = calculate_portfolio_metrics [[(1 : ℝ)], [2]] [1] (3 / 100) :=
  ⟨⟨by norm_num, by norm_num⟩,
    metrics_scale_invariant [[(1 : ℝ)], [2]] [1] (3 / 100) 2 (by norm_num) (by norm_num)⟩

/-- C2: for every price table, `calculate_portfolio_metrics` (given a
nonzero weight sum) reports the portfolio expected return as the
normalized-weight weighted sum of per-asset CAGRs, where the CAGR of an
asset is `(finalPrice / initialPrice) ^ (1 / years) - 1` with
`years = rowCount / 252`; in particular, on a 2-asset table of 252 rows
whose first asset's price grows linearly from 100 to 200, weights `[1, 0]`
yield an expected return of exactly 1 (within any tolerance). -/
theorem expected_return_is_weighted_cagr :
    (∀ (data : List (List ℝ)) (w : List ℝ) (rf : ℝ), w.sum ≠ 0 →
      ∃ mv, calculate_portfolio_metrics data w rf = .ok mv
        ∧ mv.expectedReturnCAGR
            = dot (w.map (fun x => x / w.sum))
                (List.zipWith
                  (fun i0 f0 => (f0 / i0) ^ ((1 : ℝ) / ((data.length : ℝ) / 252)) - 1)
                  (data.headD []) (data.getLastD [])))
    ∧ (∃ mv, calculate_portfolio_metrics
          ((List.range 252).map (fun t : ℕ => [(100 : ℝ) + 100 * t / 251, 50]))
          [1, 0] (3 / 100) = .ok mv
        ∧ mv.expectedReturnCAGR = 1) := by
  constructor
  · intro data w rf hs
    rw [calculate_portfolio_metrics_ok _ _ _ hs]
    exact ⟨_, rfl, rfl⟩
  · rw [calculate_portfolio_metrics_ok _ _ _ (by norm_num)]
    refine ⟨_, rfl, ?_⟩
    have hlen : ((List.range 252).map
        (fun t : ℕ => [(100 : ℝ) + 100 * t / 251, 50])).length = 252 := by
      rw [List.length_map, List.length_range]
    simp only [directMetrics, hlen,
      headD_map_range _ _ (by norm_num : 0 < 252),
      getLastD_map_range _ _ (by norm_num : 0 < 252)]
    norm_num [dot, List.zipWith, Real.rpow_one]

/-- Witness for C2's universal part at a tiny 2-row table with weights `[1]`. -/
theorem expected_return_is_weighted_cagr_witness :
    (([1] : List ℝ).sum ≠ 0)
    ∧ ∃ mv, calculate_portfolio_metrics [[(1 : ℝ)], [2]] [1] (3 / 100) = .ok mv
      ∧ mv.expectedReturnCAGR
          = dot (([1] : List ℝ).map (fun x => x / ([1] : List ℝ).sum))
              (List.zipWith
                (fun i0 f0 => (f0 / i0)
                  ^ ((1 : ℝ) / ((([[(1 : ℝ)], [2]] : List (List ℝ)).length : ℝ) / 252)) - 1)
                (([[(1 : ℝ)], [2]] : List (List ℝ)).headD [])
                (([[(1 : ℝ)], [2]] : List (List ℝ)).getLastD [])) :=
  ⟨by norm_num,
    expected_return_is_weighted_cagr.1 [[(1 : ℝ)], [2]] [1] (3 / 100) (by norm_num)⟩

end Portfolio
